import Mathlib

/-!
Verification of the LogPulse backend (Go) against its natural-language
specification.  Each Go function relevant to the claims is shallowly
embedded as an executable Lean definition; theorems below settle the
spec claims against those definitions.

Conventions:
* Go `time.Time` values are modelled as `Int` nanoseconds since the Unix
  epoch.  `time.Time.Unix()` is floor division by 10^9 (Go normalizes the
  nanosecond field into `[0, 10^9)`, adjusting seconds downward).
* Go maps `map[string]string` are modelled as association lists
  `List (String × String)`; `m[k]` (which yields `""` for a missing key)
  is `goMapGet`.
-/

namespace LogPulse

/-- Nanoseconds per second, to convert nanosecond instants to Unix seconds. -/
def nsPerSec : Int := 1000000000

/-- Go `time.Time.Unix()`: the instant's seconds since the epoch
(floor division of the nanosecond instant). -/
def timeUnix (t : Int) : Int := Int.fdiv t nsPerSec

/-- Go `t1.After(t2)`: strict comparison of instants. -/
def timeAfter (t1 t2 : Int) : Bool := t2 < t1

/-- Go's zero `time.Time` (0001-01-01T00:00:00 UTC) expressed in Unix
nanoseconds: `time.Time{}.Unix()` is -62135596800. -/
def goZeroTimeNs : Int := -62135596800 * nsPerSec

/-- Go `t.IsZero()`. -/
def timeIsZero (t : Int) : Bool := t = goZeroTimeNs

/-- Go map read `m[k]`: the stored value, or `""` when the key is absent
(string zero value). -/
def goMapGet (m : List (String × String)) (k : String) : String :=
  match m.find? (fun p => p.1 == k) with
  | some p => p.2
  | none => ""

/-- Presence of a key/value pair in a Go map (the key maps to that value). -/
def goMapHas (m : List (String × String)) (k v : String) : Prop :=
  ∃ p ∈ m, p.1 = k ∧ p.2 = v

/-- `models.LogEntry`: one ingested log line (fields used by the write and
broadcast paths). -/
structure LogEntry where
  id : Nat
  timestamp : Int
  line : String
  labels : List (String × String)
deriving Repr, DecidableEq

/-- `models.ChunkMeta`: the sidecar record written by `Writer.WriteChunk`
(StartTime/EndTime hold `time.Time.Unix()` seconds). -/
structure ChunkMeta where
  id : String
  labels : List (String × String)
  startTime : Int
  endTime : Int
  entryCount : Nat
deriving Repr, DecidableEq

/-! ## Writer.WriteChunk: chunk id and sidecar metadata (storage/writer) -/

/-- `Writer.WriteChunk` time-range computation: with a non-empty batch,
`startTime` is the FIRST entry's timestamp and `endTime` is the LAST
entry's timestamp; with an empty batch both stay the Go zero time. -/
def chunkTimeRange (entries : List LogEntry) : Int × Int :=
  match entries with
  | [] => (goZeroTimeNs, goZeroTimeNs)
  | e :: rest => (e.timestamp, ((e :: rest).getLast (by simp)).timestamp)

/-- The sidecar record `Writer.WriteChunk` builds for a batch:
`StartTime`/`EndTime` are `startTime.Unix()` / `endTime.Unix()`. -/
def writeChunkMeta (chunkID : String) (labels : List (String × String))
    (entries : List LogEntry) : ChunkMeta :=
  { id := chunkID
    labels := labels
    startTime := timeUnix (chunkTimeRange entries).1
    endTime := timeUnix (chunkTimeRange entries).2
    entryCount := entries.length }

/-- A batch sorted by non-decreasing timestamp (the order the spec's
chunk invariant needs). -/
def tsSorted (entries : List LogEntry) : Prop :=
  entries.Pairwise (fun a b => a.timestamp ≤ b.timestamp)

/-- Unix-second truncation is monotone. -/
theorem timeUnix_mono {a b : Int} (h : a ≤ b) : timeUnix a ≤ timeUnix b := by
  unfold timeUnix
  rw [Int.fdiv_eq_ediv _ (by norm_num [nsPerSec] : (0:Int) ≤ nsPerSec),
    Int.fdiv_eq_ediv _ (by norm_num [nsPerSec] : (0:Int) ≤ nsPerSec)]
  exact Int.ediv_le_ediv (by norm_num [nsPerSec]) h

/-- In a timestamp-sorted batch the head's timestamp bounds every entry
from below. -/
theorem tsSorted_head_le {e : LogEntry} {rest : List LogEntry}
    (h : tsSorted (e :: rest)) :
    ∀ x ∈ e :: rest, e.timestamp ≤ x.timestamp := by
  intro x hx
  rcases List.mem_cons.mp hx with rfl | hx
  · exact le_refl _
  · exact (List.pairwise_cons.mp h).1 x hx

/-- In a timestamp-sorted batch the last element's timestamp bounds every
entry from above. -/
theorem tsSorted_le_getLast :
    ∀ (l : List LogEntry) (hne : l ≠ []), tsSorted l →
      ∀ x ∈ l, x.timestamp ≤ (l.getLast hne).timestamp := by
  intro l
  induction l with
  | nil => intro hne; exact absurd rfl hne
  | cons a t ih =>
    intro hne hs x hx
    cases t with
    | nil =>
      rcases List.mem_cons.mp hx with rfl | hx
      · simp [List.getLast]
      · exact absurd hx (List.not_mem_nil x)
    | cons b t' =>
      have hlast : ((a :: b :: t').getLast hne).timestamp
          = ((b :: t').getLast (by simp)).timestamp := by
        simp [List.getLast]
      rw [hlast]
      rcases List.mem_cons.mp hx with rfl | hx
      · exact (List.pairwise_cons.mp hs).1 _ (List.getLast_mem _)
      · exact ih (by simp) (List.pairwise_cons.mp hs).2 x hx

/-- C1 (counterexample): `WriteChunk` takes `startTime` from the first and
`endTime` from the last entry without sorting, so a batch whose first
timestamp (10 s) exceeds its last (5 s) yields a sidecar with
`endTime < startTime`, refuting the claimed invariant for unsorted
batches. -/
theorem writeChunk_meta_unsorted_violation :
    ([⟨1, 10 * nsPerSec, "a", []⟩, ⟨2, 5 * nsPerSec, "b", []⟩] : List LogEntry) ≠ []
    ∧ (writeChunkMeta "chunk_1_1" []
        [⟨1, 10 * nsPerSec, "a", []⟩, ⟨2, 5 * nsPerSec, "b", []⟩]).endTime
      < (writeChunkMeta "chunk_1_1" []
        [⟨1, 10 * nsPerSec, "a", []⟩, ⟨2, 5 * nsPerSec, "b", []⟩]).startTime := by
  constructor
  · simp
  · decide

/-- C1 (amended): for every non-empty batch that is sorted by
non-decreasing timestamp, the sidecar written by `Writer.WriteChunk`
satisfies `startTime ≤ endTime`, and every entry's timestamp, truncated to
Unix seconds as the sidecar stores times, lies in `[startTime, endTime]`. -/
theorem writeChunk_meta_time_bounds (cid : String)
    (labels : List (String × String)) (entries : List LogEntry)
    (hne : entries ≠ []) (hs : tsSorted entries) :
    (writeChunkMeta cid labels entries).startTime
      ≤ (writeChunkMeta cid labels entries).endTime
    ∧ ∀ e ∈ entries,
        (writeChunkMeta cid labels entries).startTime ≤ timeUnix e.timestamp
        ∧ timeUnix e.timestamp ≤ (writeChunkMeta cid labels entries).endTime := by
  cases entries with
  | nil => exact absurd rfl hne
  | cons a t =>
    have hstart : (writeChunkMeta cid labels (a :: t)).startTime
        = timeUnix a.timestamp := rfl
    have hend : (writeChunkMeta cid labels (a :: t)).endTime
        = timeUnix (((a :: t).getLast (by simp)).timestamp) := rfl
    constructor
    · rw [hstart, hend]
      exact timeUnix_mono
        (tsSorted_head_le hs _ (List.getLast_mem _))
    · intro e he
      rw [hstart, hend]
      exact ⟨timeUnix_mono (tsSorted_head_le hs e he),
        timeUnix_mono (tsSorted_le_getLast _ (by simp) hs e he)⟩

/-- C1 witness: the amended theorem evaluated on a concrete sorted
two-entry batch. -/
theorem writeChunk_meta_time_bounds_witness :
    (writeChunkMeta "chunk_1_1" []
        [⟨1, 5 * nsPerSec, "a", []⟩, ⟨2, 7 * nsPerSec + 500, "b", []⟩]).startTime
      ≤ (writeChunkMeta "chunk_1_1" []
        [⟨1, 5 * nsPerSec, "a", []⟩, ⟨2, 7 * nsPerSec + 500, "b", []⟩]).endTime
    ∧ ∀ e ∈ ([⟨1, 5 * nsPerSec, "a", []⟩, ⟨2, 7 * nsPerSec + 500, "b", []⟩] : List LogEntry),
        (writeChunkMeta "chunk_1_1" []
          [⟨1, 5 * nsPerSec, "a", []⟩, ⟨2, 7 * nsPerSec + 500, "b", []⟩]).startTime
            ≤ timeUnix e.timestamp
        ∧ timeUnix e.timestamp
            ≤ (writeChunkMeta "chunk_1_1" []
              [⟨1, 5 * nsPerSec, "a", []⟩, ⟨2, 7 * nsPerSec + 500, "b", []⟩]).endTime :=
  writeChunk_meta_time_bounds "chunk_1_1" [] _ (by simp)
    (by unfold tsSorted; decide)

/-! ## Retention sweep (storage/retention.go)

`CleanupOldChunks` walks the storage tree, removes every regular file whose
modification time is strictly before the cutoff, then runs
`cleanupEmptyDirs`, a second `filepath.Walk` (pre-order, parents before
children) that removes a directory iff its listing is empty at the moment
it is visited.  The tree below models the file hierarchy under `basePath`;
the root itself (`path == basePath` in the Go code) is the implicit owner
of the top-level node list and is never removed. -/

/-- A node of the on-disk tree: a regular file with its modification time,
or a directory with its children in listing order. -/
inductive FsNode where
  | file (name : String) (modTime : Int)
  | dir (name : String) (children : List FsNode)

mutual

/-- The file-removal pass of `CleanupOldChunks` on one node: a regular
file is deleted iff `info.ModTime().Before(cutoff)`; directories are kept
by this pass (`info.IsDir()` short-circuits). -/
def removeOldNode (cutoff : Int) : FsNode → Option FsNode
  | .file n m => if m < cutoff then none else some (.file n m)
  | .dir n cs => some (.dir n (removeOldList cutoff cs))

/-- The file-removal pass over a directory listing. -/
def removeOldList (cutoff : Int) : List FsNode → List FsNode
  | [] => []
  | c :: cs =>
    match removeOldNode cutoff c with
    | none => removeOldList cutoff cs
    | some c' => c' :: removeOldList cutoff cs

end

mutual

/-- `cleanupEmptyDirs` on one node.  `filepath.Walk` calls the callback on
a directory BEFORE descending into it, so the emptiness test
(`len(entries) == 0`) sees the directory's original listing; children are
processed afterwards. -/
def cleanupNode : FsNode → Option FsNode
  | .file n m => some (.file n m)
  | .dir n cs =>
    if cs.isEmpty then none
    else some (.dir n (cleanupList cs))

/-- `cleanupEmptyDirs` over a directory listing, in order. -/
def cleanupList : List FsNode → List FsNode
  | [] => []
  | c :: cs =>
    match cleanupNode c with
    | none => cleanupList cs
    | some c' => c' :: cleanupList cs

end

/-- One full `CleanupOldChunks` run on the children of `basePath`:
the file-removal walk followed by the `cleanupEmptyDirs` walk. -/
def cleanupOldChunksModel (cutoff : Int) (cs : List FsNode) : List FsNode :=
  cleanupList (removeOldList cutoff cs)

/-- The cutoff `time.Now().AddDate(0, 0, -retentionDays)` computes
(in UTC a calendar day is exactly 86400 s). -/
def cleanupCutoff (now : Int) (retentionDays : Int) : Int :=
  now - retentionDays * 86400 * nsPerSec

mutual

/-- All regular files (name, modTime) in a node's subtree. -/
def filesOf : FsNode → List (String × Int)
  | .file n m => [(n, m)]
  | .dir _ cs => filesOfList cs

/-- All regular files in a forest. -/
def filesOfList : List FsNode → List (String × Int)
  | [] => []
  | c :: cs => filesOf c ++ filesOfList cs

end

mutual

/-- Whether a node's subtree contains at least one regular file. -/
def containsFile : FsNode → Bool
  | .file _ _ => true
  | .dir _ cs => containsFileList cs

/-- Whether a forest contains at least one regular file. -/
def containsFileList : List FsNode → Bool
  | [] => false
  | c :: cs => containsFile c || containsFileList cs

end

/-- Structural induction over the nested tree: to prove a property of all
nodes it suffices to prove it for files and for directories assuming it
for every child. -/
theorem fsInd {motive : FsNode → Prop}
    (hfile : ∀ n m, motive (.file n m))
    (hdir : ∀ n cs, (∀ c ∈ cs, motive c) → motive (.dir n cs)) :
    ∀ t, motive t
  | .file n m => hfile n m
  | .dir n cs => hdir n cs (fun c hc => fsInd hfile hdir c)
termination_by t => sizeOf t
decreasing_by
  have := List.sizeOf_lt_of_mem hc
  simp only [FsNode.dir.sizeOf_spec]
  omega

/-- The file-removal pass keeps, in order, exactly the files at or after
the cutoff. -/
theorem filesOf_removeOld (cutoff : Int) :
    ∀ t : FsNode,
      (match removeOldNode cutoff t with
        | none => []
        | some t' => filesOf t')
      = (filesOf t).filter (fun f => cutoff ≤ f.2) := by
  intro t
  induction t using fsInd with
  | hfile n m =>
    by_cases h : m < cutoff
    · have h' : ¬ cutoff ≤ m := by omega
      simp [removeOldNode, filesOf, h, h']
    · have h' : cutoff ≤ m := by omega
      simp [removeOldNode, filesOf, h, h']
  | hdir n cs ih =>
    simp only [removeOldNode, filesOf]
    induction cs with
    | nil => simp [removeOldList, filesOfList]
    | cons c cs ihl =>
      have hc := ih c (by simp)
      have hcs := ihl (fun x hx => ih x (by simp [hx]))
      rw [removeOldList, filesOfList, List.filter_append, ← hcs]
      cases hrem : removeOldNode cutoff c with
      | none =>
        have := hc
        rw [hrem] at this
        simp only [filesOfList, ← this, List.nil_append]
      | some c' =>
        have := hc
        rw [hrem] at this
        simp only [filesOfList, ← this]

/-- The `cleanupEmptyDirs` pass never adds or removes a regular file. -/
theorem filesOf_cleanup :
    ∀ t : FsNode,
      (match cleanupNode t with
        | none => []
        | some t' => filesOf t')
      = filesOf t := by
  intro t
  induction t using fsInd with
  | hfile n m => simp [cleanupNode, filesOf]
  | hdir n cs ih =>
    by_cases hempty : cs.isEmpty
    · have : cs = [] := by
        cases cs with
        | nil => rfl
        | cons a b => simp at hempty
      subst this
      simp [cleanupNode, filesOf, filesOfList]
    · simp only [cleanupNode, hempty, Bool.false_eq_true, if_false, filesOf]
      induction cs with
      | nil => simp [cleanupList, filesOfList]
      | cons c cs ihl =>
        have hc := ih c (by simp)
        by_cases hcs' : cs.isEmpty
        · have : cs = [] := by
            cases cs with
            | nil => rfl
            | cons a b => simp at hcs'
          subst this
          rw [cleanupList, filesOfList, filesOfList]
          cases hcl : cleanupNode c with
          | none =>
            have := hc; rw [hcl] at this
            simp [cleanupList, filesOfList, ← this]
          | some c' =>
            have := hc; rw [hcl] at this
            simp [cleanupList, filesOfList, ← this]
        · have hcs := ihl (fun x hx => ih x (by simp [hx])) (by simp_all)
          rw [cleanupList, filesOfList, ← hcs]
          cases hcl : cleanupNode c with
          | none =>
            have := hc; rw [hcl] at this
            simp only [filesOfList, ← this, List.nil_append]
          | some c' =>
            have := hc; rw [hcl] at this
            simp only [filesOfList, ← this]

/-- A full retention run keeps, in order, exactly the files whose modTime
is at or after the cutoff. -/
theorem filesOf_cleanupOldChunks (cutoff : Int) (cs : List FsNode) :
    filesOfList (cleanupOldChunksModel cutoff cs)
      = (filesOfList cs).filter (fun f => cutoff ≤ f.2) := by
  unfold cleanupOldChunksModel
  have h1 : ∀ ds : List FsNode,
      filesOfList (cleanupList ds) = filesOfList ds := by
    intro ds
    induction ds with
    | nil => rfl
    | cons d ds ihd =>
      rw [cleanupList, filesOfList, ← ihd]
      have hd := filesOf_cleanup d
      cases hcl : cleanupNode d with
      | none =>
        rw [hcl] at hd
        simp only [filesOfList, ← hd, List.nil_append]
      | some d' =>
        rw [hcl] at hd
        simp only [filesOfList, ← hd]
  have h2 : ∀ ds : List FsNode,
      filesOfList (removeOldList cutoff ds)
        = (filesOfList ds).filter (fun f => cutoff ≤ f.2) := by
    intro ds
    induction ds with
    | nil => rfl
    | cons d ds ihd =>
      rw [removeOldList, filesOfList, List.filter_append, ← ihd]
      have hd := filesOf_removeOld cutoff d
      cases hrem : removeOldNode cutoff d with
      | none =>
        rw [hrem] at hd
        simp only [filesOfList, ← hd, List.nil_append]
      | some d' =>
        rw [hrem] at hd
        simp only [filesOfList, ← hd]
  rw [h1, h2]

/-- C2: after a `CleanupOldChunks(basePath, retentionDays)` run, no
regular file older than the cutoff `now - retentionDays` remains, every
file at or after the cutoff is still present, and no file appears that
was not there before. -/
theorem CleanupOldChunks_retention (now retentionDays : Int) (cs : List FsNode) :
    (∀ f ∈ filesOfList (cleanupOldChunksModel (cleanupCutoff now retentionDays) cs),
        cleanupCutoff now retentionDays ≤ f.2)
    ∧ (∀ f ∈ filesOfList cs,
        cleanupCutoff now retentionDays ≤ f.2 →
          f ∈ filesOfList (cleanupOldChunksModel (cleanupCutoff now retentionDays) cs))
    ∧ (∀ f ∈ filesOfList (cleanupOldChunksModel (cleanupCutoff now retentionDays) cs),
        f ∈ filesOfList cs) := by
  rw [filesOf_cleanupOldChunks]
  refine ⟨?_, ?_, ?_⟩
  · intro f hf
    have := (List.mem_filter.mp hf).2
    exact of_decide_eq_true this
  · intro f hf hc
    exact List.mem_filter.mpr ⟨hf, decide_eq_true hc⟩
  · intro f hf
    exact (List.mem_filter.mp hf).1

/-- C2 witness: on a concrete tree (one stream directory holding a
7-day-old-plus file and a fresh file, horizon 7 days at day 10) the fresh
file survives the sweep. -/
theorem CleanupOldChunks_retention_witness :
    cleanupCutoff (10 * 86400 * nsPerSec) 7 ≤ (5 : Int) * 86400 * nsPerSec
    ∧ (("new.log", (5 : Int) * 86400 * nsPerSec)
        ∈ filesOfList (cleanupOldChunksModel (cleanupCutoff (10 * 86400 * nsPerSec) 7)
            [.dir "s" [.file "old.log" 0, .file "new.log" (5 * 86400 * nsPerSec)]])) :=
  ⟨by decide,
    (CleanupOldChunks_retention (10 * 86400 * nsPerSec) 7
        [.dir "s" [.file "old.log" 0, .file "new.log" (5 * 86400 * nsPerSec)]]).2.1
      ("new.log", 5 * 86400 * nsPerSec) (by decide) (by decide)⟩

/-- C3 (counterexample): `cleanupEmptyDirs` uses the top-down
`filepath.Walk`, so after one full sweep of a tree whose only content is
`a/b` with `b` empty, only `b` is removed: `a` survives the sweep even
though it contains no files, refuting the claim that such a directory is
removed in the same sweep. -/
theorem cleanupEmptyDirs_nested_counterexample :
    cleanupOldChunksModel 0 [.dir "a" [.dir "b" []]] = [.dir "a" []]
    ∧ containsFile (.dir "a" []) = false :=
  ⟨rfl, rfl⟩

/-- `containsFileList` is `List.any containsFile`. -/
theorem containsFileList_eq (cs : List FsNode) :
    containsFileList cs = cs.any containsFile := by
  induction cs with
  | nil => rfl
  | cons c cs ih => rw [containsFileList, List.any_cons, ih]

/-- `cleanupList` is a `filterMap` of `cleanupNode`. -/
theorem cleanupList_eq_filterMap (cs : List FsNode) :
    cleanupList cs = cs.filterMap cleanupNode := by
  induction cs with
  | nil => rfl
  | cons d ds ihd =>
    rw [cleanupList, List.filterMap_cons, ihd]
    cases cleanupNode d <;> simp

/-- A node whose subtree contains a regular file is never removed by the
`cleanupEmptyDirs` pass, and its image still contains a file. -/
theorem cleanup_keeps_files (c : FsNode) (h : containsFile c = true) :
    ∃ c', cleanupNode c = some c' ∧ containsFile c' = true := by
  induction c using fsInd with
  | hfile n m => exact ⟨.file n m, rfl, rfl⟩
  | hdir n cs ih =>
    rw [containsFile, containsFileList_eq] at h
    simp only [List.any_eq_true] at h
    obtain ⟨x, hx, hxf⟩ := h
    obtain ⟨x', hx', hxf'⟩ := ih x hx hxf
    have hne : ¬ cs.isEmpty := by
      rcases cs with _ | _
      · simp at hx
      · simp
    refine ⟨.dir n (cleanupList cs), ?_, ?_⟩
    · rw [cleanupNode]
      simp [hne]
    · rw [containsFile, containsFileList_eq]
      simp only [List.any_eq_true]
      refine ⟨x', ?_, hxf'⟩
      rw [cleanupList_eq_filterMap]
      exact List.mem_filterMap.mpr ⟨x, hx, hx'⟩

/-- C3 (amended): one `cleanupEmptyDirs` pass removes exactly the
directories that are empty when visited: a directory whose listing was
empty before the pass is removed; regular files are untouched; a
directory kept by the pass had a non-empty listing before the pass; and a
node whose subtree contains a file is never removed.  (A directory whose
only content was an empty directory becomes empty only during the pass
and survives until a later sweep.) -/
theorem cleanupEmptyDirs_spec :
    (∀ n : String, cleanupNode (.dir n []) = none)
    ∧ (∀ (n : String) (m : Int), cleanupNode (.file n m) = some (.file n m))
    ∧ (∀ (n : String) (cs : List FsNode) (r : FsNode),
        cleanupNode (.dir n cs) = some r → cs ≠ [])
    ∧ (∀ c : FsNode, containsFile c = true →
        ∃ c', cleanupNode c = some c' ∧ containsFile c' = true) := by
  refine ⟨fun n => rfl, fun n m => rfl, ?_, cleanup_keeps_files⟩
  intro n cs r h hcs
  subst hcs
  simp [cleanupNode] at h

/-- C3 witness: the amended theorem evaluated on concrete nodes. -/
theorem cleanupEmptyDirs_spec_witness :
    cleanupNode (.dir "s" []) = none
    ∧ cleanupNode (.file "c.log" 5) = some (.file "c.log" 5)
    ∧ ([FsNode.file "f" 1] : List FsNode) ≠ []
    ∧ (∃ c', cleanupNode (.dir "s" [.file "f" 1]) = some c'
        ∧ containsFile c' = true) :=
  ⟨cleanupEmptyDirs_spec.1 "s",
    cleanupEmptyDirs_spec.2.1 "c.log" 5,
    cleanupEmptyDirs_spec.2.2.1 "s" [.file "f" 1] (.dir "s" [.file "f" 1]) rfl,
    cleanupEmptyDirs_spec.2.2.2 (.dir "s" [.file "f" 1]) rfl⟩

/-! ## Writer.WriteChunk: I/O order and commit protocol

`WriteChunk` performs, in program order: `os.MkdirAll`, `os.Create` of the
`.log` file (its `Close` deferred), buffered writes of each entry,
`writer.Flush()`, `os.Create` of the `.meta` sidecar (its `Close`
deferred), the JSON encode of the metadata, and then the deferred closes
in LIFO order (meta first, then the data file).  Each fallible step
returns early on failure; the traces below record the operations that
completed in a run, one trace per failure point (bufio write errors
surface at `Flush`, so a write failure is the `flushFail` mode). -/

/-- A completed file-system operation inside one `WriteChunk` call. -/
inductive WcEvent where
  | mkdirDir
  | createData
  | writeEntry (i : Nat)
  | flushData
  | createMeta
  | encodeMeta
  | closeMeta
  | closeData
deriving Repr, DecidableEq

/-- Which step of `WriteChunk` fails, if any. -/
inductive WcFail where
  | noFail
  | mkdirFail
  | createDataFail
  | flushFail
  | createMetaFail
deriving Repr, DecidableEq

/-- The operations completed by one `WriteChunk` call on a batch of `n`
entries, and whether the call returned without error.  Failed attempts
produce no event; deferred closes run on early return once registered. -/
def writeChunkRun (n : Nat) : WcFail → List WcEvent × Bool
  | .noFail =>
    ([.mkdirDir, .createData] ++ (List.range n).map WcEvent.writeEntry
      ++ [.flushData, .createMeta, .encodeMeta, .closeMeta, .closeData], true)
  | .mkdirFail => ([], false)
  | .createDataFail => ([.mkdirDir], false)
  | .flushFail =>
    ([.mkdirDir, .createData] ++ (List.range n).map WcEvent.writeEntry
      ++ [.closeData], false)
  | .createMetaFail =>
    ([.mkdirDir, .createData] ++ (List.range n).map WcEvent.writeEntry
      ++ [.flushData, .closeData], false)

/-- `a` happens before `b` in trace `tr`: both occur, and the first
occurrence of `a` is strictly earlier than the first occurrence of `b`
(every event occurs at most once in a `WriteChunk` trace). -/
def happensBefore (tr : List WcEvent) (a b : WcEvent) : Prop :=
  a ∈ tr ∧ b ∈ tr ∧ tr.indexOf a < tr.indexOf b

instance (tr : List WcEvent) (a b : WcEvent) : Decidable (happensBefore tr a b) :=
  inferInstanceAs (Decidable (a ∈ tr ∧ b ∈ tr ∧ tr.indexOf a < tr.indexOf b))

/-- C4 (counterexample): in a successful `WriteChunk` run the data file's
`Close` is deferred and runs only at function return, AFTER the `.meta`
sidecar is created — the data file is flushed but not closed before the
sidecar appears. -/
theorem writeChunk_close_after_meta :
    WcEvent.closeData ∈ (writeChunkRun 1 .noFail).1
    ∧ WcEvent.createMeta ∈ (writeChunkRun 1 .noFail).1
    ∧ ¬ happensBefore (writeChunkRun 1 .noFail).1 .closeData .createMeta := by
  decide

/-- C4 (amended): every entry write and the buffer flush complete before
the `.meta` sidecar is created (the data file stays open until return),
and a `WriteChunk` call that returns an error never created the sidecar:
the batch is not committed. -/
theorem writeChunk_commit_protocol (n i : Nat) (f : WcFail) (hi : i < n) :
    happensBefore (writeChunkRun n .noFail).1 (.writeEntry i) .createMeta
    ∧ happensBefore (writeChunkRun n .noFail).1 .flushData .createMeta
    ∧ ((writeChunkRun n f).2 = false →
        WcEvent.createMeta ∉ (writeChunkRun n f).1) := by
  have hinA : ∀ e : WcEvent, (∀ j : Nat, e ≠ .writeEntry j) → e ≠ .mkdirDir →
      e ≠ .createData → e ∉ ([.mkdirDir, .createData] : List WcEvent)
        ∧ e ∉ (List.range n).map WcEvent.writeEntry := by
    intro e hw h1 h2
    constructor
    · simp [h1, h2]
    · simp only [List.mem_map, not_exists, not_and]
      intro j _ hj
      exact hw j hj.symm
  have hmetaidx : ((writeChunkRun n .noFail).1).indexOf .createMeta = n + 3 := by
    show (([.mkdirDir, .createData] ++ ((List.range n).map WcEvent.writeEntry
      ++ [.flushData, .createMeta, .encodeMeta, .closeMeta, .closeData])
        : List WcEvent)).indexOf .createMeta = n + 3
    rw [List.indexOf_append_of_not_mem (by simp),
      List.indexOf_append_of_not_mem ((hinA .createMeta (by simp) (by simp)
        (by simp)).2)]
    simp [List.indexOf_cons_ne, List.indexOf_cons_eq]
    omega
  refine ⟨⟨?_, ?_, ?_⟩, ⟨?_, ?_, ?_⟩, ?_⟩
  · show WcEvent.writeEntry i ∈ ([.mkdirDir, .createData]
      ++ ((List.range n).map WcEvent.writeEntry ++ [.flushData, .createMeta,
        .encodeMeta, .closeMeta, .closeData]) : List WcEvent)
    refine List.mem_append_right _ (List.mem_append_left _ ?_)
    exact List.mem_map.mpr ⟨i, List.mem_range.mpr hi, rfl⟩
  · show WcEvent.createMeta ∈ ([.mkdirDir, .createData]
      ++ ((List.range n).map WcEvent.writeEntry ++ [.flushData, .createMeta,
        .encodeMeta, .closeMeta, .closeData]) : List WcEvent)
    simp
  · rw [hmetaidx]
    show (([.mkdirDir, .createData] ++ ((List.range n).map WcEvent.writeEntry
      ++ [.flushData, .createMeta, .encodeMeta, .closeMeta, .closeData])
        : List WcEvent)).indexOf (.writeEntry i) < n + 3
    rw [List.indexOf_append_of_not_mem (by simp),
      List.indexOf_append_of_mem
        (List.mem_map.mpr ⟨i, List.mem_range.mpr hi, rfl⟩)]
    have : ((List.range n).map WcEvent.writeEntry).indexOf (.writeEntry i)
        < ((List.range n).map WcEvent.writeEntry).length :=
      List.indexOf_lt_length.mpr
        (List.mem_map.mpr ⟨i, List.mem_range.mpr hi, rfl⟩)
    simp only [List.length_map, List.length_range] at this
    simp only [List.length_cons, List.length_nil]
    omega
  · show WcEvent.flushData ∈ ([.mkdirDir, .createData]
      ++ ((List.range n).map WcEvent.writeEntry ++ [.flushData, .createMeta,
        .encodeMeta, .closeMeta, .closeData]) : List WcEvent)
    simp
  · show WcEvent.createMeta ∈ ([.mkdirDir, .createData]
      ++ ((List.range n).map WcEvent.writeEntry ++ [.flushData, .createMeta,
        .encodeMeta, .closeMeta, .closeData]) : List WcEvent)
    simp
  · rw [hmetaidx]
    show (([.mkdirDir, .createData] ++ ((List.range n).map WcEvent.writeEntry
      ++ [.flushData, .createMeta, .encodeMeta, .closeMeta, .closeData])
        : List WcEvent)).indexOf .flushData < n + 3
    rw [List.indexOf_append_of_not_mem (by simp),
      List.indexOf_append_of_not_mem ((hinA .flushData (by simp) (by simp)
        (by simp)).2)]
    simp [List.indexOf_cons_eq]
    omega
  · intro hfail
    cases f with
    | noFail => simp [writeChunkRun] at hfail
    | mkdirFail => simp [writeChunkRun]
    | createDataFail => simp [writeChunkRun]
    | flushFail =>
      simp only [writeChunkRun, List.mem_append, List.mem_cons,
        List.mem_singleton, List.mem_map, not_or]
      refine ⟨⟨by simp, ?_⟩, by simp⟩
      simp only [not_exists, not_and]
      intro j _ hj
      exact absurd hj (by simp)
    | createMetaFail =>
      simp only [writeChunkRun, List.mem_append, List.mem_cons,
        List.mem_singleton, List.mem_map, not_or]
      refine ⟨⟨by simp, ?_⟩, by simp⟩
      simp only [not_exists, not_and]
      intro j _ hj
      exact absurd hj (by simp)

/-- C4 witness: the amended theorem evaluated at a one-entry batch with a
flush failure. -/
theorem writeChunk_commit_protocol_witness :
    happensBefore (writeChunkRun 1 .noFail).1 (.writeEntry 0) .createMeta
    ∧ happensBefore (writeChunkRun 1 .noFail).1 .flushData .createMeta
    ∧ (writeChunkRun 1 .flushFail).2 = false
    ∧ WcEvent.createMeta ∉ (writeChunkRun 1 .flushFail).1 :=
  ⟨(writeChunk_commit_protocol 1 0 .flushFail (by decide)).1,
    (writeChunk_commit_protocol 1 0 .flushFail (by decide)).2.1,
    by decide,
    (writeChunk_commit_protocol 1 0 .flushFail (by decide)).2.2 (by decide)⟩

/-! ## Writer chunk identifiers

`WriteChunk` computes `seq := atomic.AddInt64(&w.chunkSeq, 1)` and
`chunkID := fmt.Sprintf("chunk_%d_%d", time.Now().Unix(), seq)`.
`chunkSeq` is a plain in-memory field of `Writer`; `NewWriter` leaves it
at its zero value and nothing persists or seeds it. -/

/-- `chunkSeq` of a freshly constructed `Writer` (Go zero value). -/
def newWriterChunkSeq : Int := 0

/-- `fmt.Sprintf("chunk_%d_%d", nowUnix, seq)`. -/
def chunkIDString (nowUnix seq : Int) : String :=
  "chunk_" ++ toString nowUnix ++ "_" ++ toString seq

/-- One `WriteChunk` call's id generation: increment the sequence
atomically and format the id from the current wall-clock Unix second and
the new sequence value.  Returns the id and the updated `chunkSeq`. -/
def writeChunkId (seq nowUnix : Int) : String × Int :=
  (chunkIDString nowUnix (seq + 1), seq + 1)

/-- The chunk id returned by the first `WriteChunk` call of a process run
(fresh `Writer`) whose clock reads Unix second `t`. -/
def firstChunkIdOfRun (t : Int) : String :=
  (writeChunkId newWriterChunkSeq t).1

/-- C5 (failing run): the first chunk id of ANY process run is fully
determined by the wall-clock second — `chunk_<t>_1` — because the
sequence restarts at zero with every `NewWriter` and is never persisted.
Two process runs whose first `WriteChunk` calls to the same stream
directory happen in the same Unix second therefore return identical
chunk ids, violating cross-run uniqueness. -/
theorem chunkID_restart_collision (t : Int) :
    firstChunkIdOfRun t = chunkIDString t 1
    ∧ (writeChunkId newWriterChunkSeq t).2 = 1 := by
  constructor
  · show chunkIDString t (0 + 1) = chunkIDString t 1
    norm_num
  · show (0 : Int) + 1 = 1
    norm_num

/-! ## Loki handler: limit validation (api/loki_handler.go)

Both `QueryRange` and `Query` parse the `limit` query parameter the same
way: absent means the endpoint default (1000 resp. 100); a non-integer,
a value ≤ 0, and a value > 10000 are each rejected with HTTP 400 and
code `VALIDATION_ERROR`. -/

/-- A structured error response: HTTP status and error code, as produced
by `WriteErrorResponse`. -/
structure ApiError where
  status : Nat
  code : String
deriving Repr, DecidableEq

/-- The state of the `limit` query parameter: absent, present but not an
integer (`strconv.Atoi` fails), or an integer value. -/
inductive LimitParam where
  | absent
  | malformed
  | value (k : Int)
deriving Repr, DecidableEq

/-- Default `limit` in `LokiHandler.QueryRange`. -/
def queryRangeDefaultLimit : Int := 1000

/-- Default `limit` in `LokiHandler.Query` (instant query). -/
def instantDefaultLimit : Int := 100

/-- The limit-parsing block shared by `QueryRange` and `Query`. -/
def parseLimit (p : LimitParam) (dflt : Int) : Except ApiError Int :=
  match p with
  | .absent => .ok dflt
  | .malformed => .error ⟨400, "VALIDATION_ERROR"⟩
  | .value k =>
    if k ≤ 0 then .error ⟨400, "VALIDATION_ERROR"⟩
    else if k > 10000 then .error ⟨400, "VALIDATION_ERROR"⟩
    else .ok k

/-- C6 (counterexample): `limit=0` is rejected with HTTP 400
`VALIDATION_ERROR` ("Limit must be greater than 0") — it does not mean
unlimited, and the request does not proceed. -/
theorem limit_zero_rejected :
    parseLimit (.value 0) queryRangeDefaultLimit
      = .error ⟨400, "VALIDATION_ERROR"⟩
    ∧ parseLimit (.value (-3)) instantDefaultLimit
      = .error ⟨400, "VALIDATION_ERROR"⟩ :=
  ⟨rfl, rfl⟩

/-- C6 (amended): an explicit `limit` that is zero or negative — like one
over 10000 or a non-integer — is rejected with HTTP 400
`VALIDATION_ERROR`; an absent `limit` defaults to 1000 for range queries
and 100 for instant queries; an explicit `limit` in `[1, 10000]` is used
as given. -/
theorem limit_validation (k dflt : Int) :
    (k ≤ 0 → parseLimit (.value k) dflt = .error ⟨400, "VALIDATION_ERROR"⟩)
    ∧ (10000 < k →
        parseLimit (.value k) dflt = .error ⟨400, "VALIDATION_ERROR"⟩)
    ∧ (1 ≤ k → k ≤ 10000 → parseLimit (.value k) dflt = .ok k)
    ∧ parseLimit .malformed dflt = .error ⟨400, "VALIDATION_ERROR"⟩
    ∧ parseLimit .absent queryRangeDefaultLimit = .ok 1000
    ∧ parseLimit .absent instantDefaultLimit = .ok 100 := by
  refine ⟨?_, ?_, ?_, rfl, rfl, rfl⟩
  · intro h
    simp [parseLimit, h]
  · intro h
    have h1 : ¬ k ≤ 0 := by omega
    have h2 : k > 10000 := h
    simp [parseLimit, h1, h2]
  · intro h1 h2
    have h3 : ¬ k ≤ 0 := by omega
    have h4 : ¬ k > 10000 := by omega
    simp [parseLimit, h3, h4]

/-- C6 witness: the amended limit policy at concrete limits 0, 20000
and 50. -/
theorem limit_validation_witness :
    parseLimit (.value 0) 1000 = .error ⟨400, "VALIDATION_ERROR"⟩
    ∧ parseLimit (.value 20000) 1000 = .error ⟨400, "VALIDATION_ERROR"⟩
    ∧ parseLimit (.value 50) 1000 = .ok 50
    ∧ parseLimit .malformed 1000 = .error ⟨400, "VALIDATION_ERROR"⟩
    ∧ parseLimit .absent queryRangeDefaultLimit = .ok 1000
    ∧ parseLimit .absent instantDefaultLimit = .ok 100 :=
  ⟨(limit_validation 0 1000).1 (by decide),
    (limit_validation 20000 1000).2.1 (by decide),
    (limit_validation 50 1000).2.2.1 (by decide) (by decide),
    (limit_validation 50 1000).2.2.2.1,
    (limit_validation 50 1000).2.2.2.2.1,
    (limit_validation 50 1000).2.2.2.2.2⟩

/-! ## Loki handler: time-range policy (api/loki_handler.go)

`QueryRange` parses `start` (default `now - 1h`) and `end` (default
`now`), each rejecting an unparseable value with `INVALID_TIME_RANGE`,
then rejects `start.After(end)` — but only when BOTH times are non-zero
(`!startTime.IsZero() && !endTime.IsZero()`).  `Query` ignores `start`
and `end` and always uses the window `[now - 5m, now]`. -/

/-- The state of a `start`/`end` query parameter: absent, unparseable, or
parsed to an instant (nanoseconds; `0001-01-01T00:00:00Z` parses to Go's
zero time). -/
inductive TimeParam where
  | absent
  | malformed
  | parsed (t : Int)
deriving Repr, DecidableEq

/-- The outcome of `QueryRange`'s parameter handling. -/
inductive RangeOutcome where
  | invalidStart
  | invalidEnd
  | invalidRange
  | execute (s e : Int)
deriving Repr, DecidableEq

/-- `QueryRange`'s time-window logic: parse `start` then `end` with their
defaults, then the guarded range check. -/
def queryRangeWindow (sp ep : TimeParam) (now : Int) : RangeOutcome :=
  match sp with
  | .malformed => .invalidStart
  | _ =>
    let s := match sp with
      | .parsed t => t
      | _ => now - 3600 * nsPerSec
    match ep with
    | .malformed => .invalidEnd
    | _ =>
      let e := match ep with
        | .parsed t => t
        | _ => now
      if !timeIsZero s && !timeIsZero e && timeAfter s e then
        .invalidRange
      else
        .execute s e

/-- `Query`'s (instant) window: `[now - 5 minutes, now]`. -/
def instantWindow (now : Int) : Int × Int := (now - 300 * nsPerSec, now)

/-- C7 (counterexample): `end=0001-01-01T00:00:00Z` parses successfully
to Go's zero time, so the `!endTime.IsZero()` guard skips the range
check: with `start` = 2024-01-15T10:00:00Z strictly after `end`, the
handler executes the query instead of failing with
`INVALID_TIME_RANGE`. -/
theorem queryRange_zero_end_not_rejected :
    timeAfter (1705312800 * nsPerSec) goZeroTimeNs = true
    ∧ queryRangeWindow (.parsed (1705312800 * nsPerSec))
        (.parsed goZeroTimeNs) (1705316400 * nsPerSec)
      = .execute (1705312800 * nsPerSec) goZeroTimeNs := by
  decide

/-- C7 (amended): when both `start` and `end` parse to instants distinct
from Go's zero time and `start` is after `end`, `QueryRange` fails with
the time-range error and does not execute; absent `start`/`end` default
to the window `[now - 1h, now]` (which always executes); an instant query
always uses `[now - 5m, now]`. -/
theorem queryRange_time_policy (s e now : Int) :
    (s ≠ goZeroTimeNs → e ≠ goZeroTimeNs → e < s →
      queryRangeWindow (.parsed s) (.parsed e) now = .invalidRange)
    ∧ queryRangeWindow .absent .absent now
        = .execute (now - 3600 * nsPerSec) now
    ∧ instantWindow now = (now - 300 * nsPerSec, now)
    ∧ (∀ ep : TimeParam, queryRangeWindow .malformed ep now = .invalidStart)
    ∧ queryRangeWindow (.parsed s) .malformed now = .invalidEnd := by
  refine ⟨?_, ?_, rfl, fun ep => rfl, rfl⟩
  · intro hs he hlt
    simp only [queryRangeWindow, timeIsZero, timeAfter]
    have h1 : decide (s = goZeroTimeNs) = false := decide_eq_false hs
    have h2 : decide (e = goZeroTimeNs) = false := decide_eq_false he
    have h3 : decide (e < s) = true := decide_eq_true hlt
    simp [h1, h2, h3]
  · simp only [queryRangeWindow, timeAfter]
    have h3 : decide (now < now - 3600 * nsPerSec) = false :=
      decide_eq_false (by simp only [nsPerSec]; omega)
    simp [h3]

/-- C7 witness: the amended policy at concrete instants 10 s, 5 s and
now = 20 s. -/
theorem queryRange_time_policy_witness :
    queryRangeWindow (.parsed (10 * nsPerSec)) (.parsed (5 * nsPerSec))
        (20 * nsPerSec) = .invalidRange
    ∧ queryRangeWindow .absent .absent (20 * nsPerSec)
        = .execute (20 * nsPerSec - 3600 * nsPerSec) (20 * nsPerSec)
    ∧ instantWindow (20 * nsPerSec)
        = (20 * nsPerSec - 300 * nsPerSec, 20 * nsPerSec)
    ∧ queryRangeWindow .malformed .absent (20 * nsPerSec) = .invalidStart
    ∧ queryRangeWindow (.parsed (10 * nsPerSec)) .malformed (20 * nsPerSec)
        = .invalidEnd :=
  ⟨(queryRange_time_policy (10 * nsPerSec) (5 * nsPerSec) (20 * nsPerSec)).1
      (by decide) (by decide) (by decide),
    (queryRange_time_policy (10 * nsPerSec) (5 * nsPerSec)
      (20 * nsPerSec)).2.1,
    (queryRange_time_policy (10 * nsPerSec) (5 * nsPerSec)
      (20 * nsPerSec)).2.2.1,
    (queryRange_time_policy (10 * nsPerSec) (5 * nsPerSec)
      (20 * nsPerSec)).2.2.2.1 .absent,
    (queryRange_time_policy (10 * nsPerSec) (5 * nsPerSec)
      (20 * nsPerSec)).2.2.2.2⟩

/-! ## StreamHub broadcast (api/stream_handler.go)

`Broadcast` does a `select` with a `default` branch on the hub's central
channel (`make(chan *models.LogEntry, 5000)` in `NewStreamHub`): if the
buffered channel has free space the entry is enqueued, otherwise the
entry is discarded and the atomic `dropCount` is incremented by one. -/

/-- Capacity of the hub's central broadcast channel in `NewStreamHub`. -/
def broadcastCapacity : Nat := 5000

/-- The hub state the broadcast path touches: the buffered channel's
contents (in order) and the atomic dropped-message counter. -/
structure HubState where
  queue : List LogEntry
  dropCount : Int
deriving Repr, DecidableEq

/-- The hub as `NewStreamHub` constructs it: empty channel, zero drops. -/
def newStreamHub : HubState := { queue := [], dropCount := 0 }

/-- `StreamHub.Broadcast`: non-blocking send; enqueue when the channel is
below capacity, else drop the entry and bump the counter. -/
def hubBroadcast (h : HubState) (e : LogEntry) : HubState :=
  if h.queue.length < broadcastCapacity then
    { h with queue := h.queue ++ [e] }
  else
    { h with dropCount := h.dropCount + 1 }

/-- C8: a `Broadcast` with free channel space appends the entry and
leaves the dropped counter unchanged; a `Broadcast` against a full
channel leaves the channel unchanged and increments the dropped counter
by exactly one; the channel capacity is 5000.  (Non-blocking: the
embedded `hubBroadcast` is a total function of the pre-state.) -/
theorem hubBroadcast_spec (h : HubState) (e : LogEntry) :
    (h.queue.length < broadcastCapacity →
      (hubBroadcast h e).queue = h.queue ++ [e]
      ∧ (hubBroadcast h e).dropCount = h.dropCount)
    ∧ (broadcastCapacity ≤ h.queue.length →
      (hubBroadcast h e).queue = h.queue
      ∧ (hubBroadcast h e).dropCount = h.dropCount + 1)
    ∧ broadcastCapacity = 5000
    ∧ newStreamHub.queue.length = 0 := by
  refine ⟨?_, ?_, rfl, rfl⟩
  · intro hlt
    simp [hubBroadcast, hlt]
  · intro hge
    have : ¬ h.queue.length < broadcastCapacity := by omega
    simp [hubBroadcast, this]

/-- C8 witness: a broadcast into the fresh hub enqueues without drops; a
broadcast into a hub whose channel holds 5000 entries drops and counts. -/
theorem hubBroadcast_spec_witness :
    ((hubBroadcast newStreamHub ⟨1, 0, "x", []⟩).queue
        = newStreamHub.queue ++ [⟨1, 0, "x", []⟩]
      ∧ (hubBroadcast newStreamHub ⟨1, 0, "x", []⟩).dropCount
        = newStreamHub.dropCount)
    ∧ ((hubBroadcast ⟨List.replicate 5000 ⟨0, 0, "y", []⟩, 7⟩
          ⟨1, 0, "x", []⟩).queue
        = (⟨List.replicate 5000 ⟨0, 0, "y", []⟩, 7⟩ : HubState).queue
      ∧ (hubBroadcast ⟨List.replicate 5000 ⟨0, 0, "y", []⟩, 7⟩
          ⟨1, 0, "x", []⟩).dropCount
        = (⟨List.replicate 5000 ⟨0, 0, "y", []⟩, 7⟩ : HubState).dropCount
            + 1) :=
  ⟨(hubBroadcast_spec newStreamHub ⟨1, 0, "x", []⟩).1 (by decide),
    (hubBroadcast_spec ⟨List.replicate 5000 ⟨0, 0, "y", []⟩, 7⟩
        ⟨1, 0, "x", []⟩).2.1 (by rw [List.length_replicate]; decide)⟩

/-! ## Subscriber filters (api/stream_handler.go)

`matchesFilter(logLabels, filterLabels)` returns true when the filter is
empty, and otherwise requires `logLabels[k] == v` for every filter pair —
where the Go map read yields `""` for a missing key. -/

/-- `matchesFilter`: every filter pair must match under Go map lookup
(missing key reads as `""`); the empty filter matches everything. -/
def matchesFilter (logLabels filterLabels : List (String × String)) : Bool :=
  filterLabels.all (fun p => goMapGet logLabels p.1 == p.2)

/-- Go map key sets are duplicate-free; association lists modelling them
carry this invariant where a proof needs it. -/
def keysNodup (m : List (String × String)) : Prop :=
  (m.map Prod.fst).Nodup

/-- A Go map lookup that found `v ≠ ""` under key `k` pinpoints the pair
`(k, v)` in the map. -/
theorem mem_of_goMapGet (L : List (String × String)) (k v : String)
    (hv : v ≠ "") (h : goMapGet L k = v) : (k, v) ∈ L := by
  unfold goMapGet at h
  cases hf : L.find? (fun p => p.1 == k) with
  | none => rw [hf] at h; exact absurd h.symm hv
  | some q =>
    rw [hf] at h
    have hq := List.find?_some hf
    have hqmem := List.mem_of_find?_eq_some hf
    have : q.1 = k := by simpa using hq
    have : q = (k, v) := by
      cases q with
      | mk q1 q2 => simp_all
    rw [← this]
    exact hqmem

/-- With duplicate-free keys, a pair present in the map is what the map
lookup returns. -/
theorem goMapGet_of_mem (L : List (String × String)) (k v : String)
    (hnd : keysNodup L) (h : (k, v) ∈ L) : goMapGet L k = v := by
  induction L with
  | nil => exact absurd h (List.not_mem_nil _)
  | cons q L ih =>
    have hnd1 : (q.1 :: L.map Prod.fst).Nodup := by
      simpa [keysNodup] using hnd
    rcases List.mem_cons.mp h with rfl | hmem
    · unfold goMapGet
      rw [List.find?_cons_of_pos _ (by simp)]
    · have hk : q.1 ≠ k := by
        intro hEq
        have hkm : k ∈ L.map Prod.fst := List.mem_map.mpr ⟨(k, v), hmem, rfl⟩
        exact (List.nodup_cons.mp hnd1).1 (hEq ▸ hkm)
      have hnd' : keysNodup L := (List.nodup_cons.mp hnd1).2
      have hrec := ih hnd' hmem
      unfold goMapGet at hrec ⊢
      rw [List.find?_cons_of_neg _ (by simpa using hk)]
      exact hrec

/-- C9 (counterexample): a filter that maps a key to the empty string
matches an entry whose labels lack that key entirely (the Go map read
returns `""`), so `matchesFilter` is NOT the subset test the claim
states: it returns true although the filter pair is absent from the
entry's labels. -/
theorem matchesFilter_empty_value_counterexample :
    matchesFilter [] [("k", "")] = true
    ∧ ("k", "") ∉ ([] : List (String × String)) := by
  exact ⟨rfl, List.not_mem_nil _⟩

/-- C9 (amended): `matchesFilter L F` holds iff every pair of `F` matches
under Go map semantics (`L[k] == v` with missing keys reading as `""`);
when no filter value is the empty string this coincides with the claimed
subset test `F ⊆ L` (keys of a Go map are duplicate-free); the empty
filter matches every entry. -/
theorem matchesFilter_spec (L F : List (String × String))
    (hnd : keysNodup L) :
    (matchesFilter L F = true ↔ ∀ p ∈ F, goMapGet L p.1 = p.2)
    ∧ ((∀ p ∈ F, p.2 ≠ "") →
        (matchesFilter L F = true ↔ ∀ p ∈ F, p ∈ L))
    ∧ matchesFilter L [] = true := by
  have hiff : matchesFilter L F = true ↔ ∀ p ∈ F, goMapGet L p.1 = p.2 := by
    unfold matchesFilter
    rw [List.all_eq_true]
    constructor
    · intro hall p hp
      simpa using hall p hp
    · intro hall p hp
      simpa using hall p hp
  refine ⟨hiff, ?_, rfl⟩
  intro hne
  rw [hiff]
  constructor
  · intro hall p hp
    have := hall p hp
    have hp2 := hne p hp
    have := mem_of_goMapGet L p.1 p.2 hp2 this
    simpa using this
  · intro hall p hp
    have hmem := hall p hp
    have : ((p.1, p.2) : String × String) ∈ L := by simpa using hmem
    exact goMapGet_of_mem L p.1 p.2 hnd this

/-- C9 witness: the amended characterization on a concrete entry label
map and filter. -/
theorem matchesFilter_spec_witness :
    (matchesFilter [("service", "api"), ("level", "error")]
        [("service", "api")] = true
      ↔ ∀ p ∈ [(("service" : String), ("api" : String))],
          goMapGet [("service", "api"), ("level", "error")] p.1 = p.2)
    ∧ (matchesFilter [("service", "api"), ("level", "error")]
        [("service", "api")] = true
      ↔ ∀ p ∈ [(("service" : String), ("api" : String))],
          p ∈ [(("service" : String), ("api" : String)),
            ("level", "error")])
    ∧ matchesFilter [("service", "api"), ("level", "error")] [] = true :=
  ⟨(matchesFilter_spec [("service", "api"), ("level", "error")]
      [("service", "api")] (by unfold keysNodup; decide)).1,
    (matchesFilter_spec [("service", "api"), ("level", "error")]
      [("service", "api")] (by unfold keysNodup; decide)).2.1 (by decide),
    (matchesFilter_spec [("service", "api"), ("level", "error")]
      [("service", "api")] (by unfold keysNodup; decide)).2.2⟩

/-! ## Auth middleware (api/routes.go)

When `cfg.Auth.Enabled`, `authMiddleware(apiKey)` wraps every route: it
forwards OPTIONS requests and WebSocket upgrades unchecked; otherwise it
reads `X-API-Key`, falls back to `Authorization` when that is empty, and
rejects with HTTP 401 unless the key equals the configured one.  (Go's
`Header.Get` returns `""` both for an absent header and for one set to
the empty string, so "absent" is modelled as `""`.) -/

/-- The middleware's decision for one request. -/
inductive AuthDecision where
  | forward
  | unauthorized
deriving Repr, DecidableEq

/-- The request fields `authMiddleware` reads (header values via
`Header.Get`, `""` when absent). -/
structure AuthRequest where
  method : String
  upgradeHeader : String
  xApiKey : String
  authorization : String
deriving Repr, DecidableEq

/-- `authMiddleware(apiKey)` on one request. -/
def authMiddleware (apiKey : String) (r : AuthRequest) : AuthDecision :=
  if r.method == "OPTIONS" then .forward
  else if r.upgradeHeader == "websocket" then .forward
  else
    let key := if r.xApiKey == "" then r.authorization else r.xApiKey
    if key != apiKey then .unauthorized else .forward

/-- C10: with auth enabled, a request is forwarded to the protected
handler iff it is an OPTIONS request, carries `Upgrade: websocket`, or
its effective key — `X-API-Key`, or `Authorization` when `X-API-Key` is
empty/absent — equals the configured API key exactly; every other
request is rejected with HTTP 401. -/
theorem authMiddleware_spec (apiKey : String) (r : AuthRequest) :
    (authMiddleware apiKey r = .forward
      ↔ (r.method = "OPTIONS" ∨ r.upgradeHeader = "websocket"
          ∨ (if r.xApiKey = "" then r.authorization else r.xApiKey)
              = apiKey))
    ∧ (authMiddleware apiKey r = .unauthorized
      ↔ ¬ (r.method = "OPTIONS" ∨ r.upgradeHeader = "websocket"
          ∨ (if r.xApiKey = "" then r.authorization else r.xApiKey)
              = apiKey)) := by
  unfold authMiddleware
  by_cases hm : r.method = "OPTIONS"
  · simp [hm]
  · by_cases hu : r.upgradeHeader = "websocket"
    · simp [hm, hu]
    · by_cases hx : r.xApiKey = ""
      · by_cases ha : r.authorization = apiKey
        · simp [hm, hu, hx, ha]
        · simp [hm, hu, hx, ha]
      · by_cases ha : r.xApiKey = apiKey
        · simp [hm, hu, hx, ha]
        · simp [hm, hu, hx, ha]

end LogPulse
